import Mathlib

/-!
Verification of the dependency-free inference path of the `chuchu` ML
scripts.  The definitions below are a shallow embedding of
`ml/complexity_detection/scripts/predict.py` (tokenizer, tf-idf
vectorizer, linear scorer, heuristic overlay, softmax decision layer,
model loader) and of `ml/recommender/scripts/predict.py`.

Numeric conventions: the JSON artifact stores rationals, so artifact
data is modelled with `ℚ`; all runtime arithmetic (sqrt, exp, division)
is carried out in `ℝ`, which models IEEE double computation by exact
real computation.  Fallible Python code (numpy shape errors, list index
errors, sklearn validation errors) is modelled with `Except String`.
-/

namespace Chuchu

/-- Prefix test on character lists, needle first: mirrors the way Python
substring search compares the needle against the head of the haystack. -/
def startsWithChars : List Char → List Char → Bool
  | [], _ => true
  | _ :: _, [] => false
  | a :: as, b :: bs => a = b && startsWithChars as bs

/-- Substring containment on character lists (haystack first): the model
of the Python `needle in haystack` test. -/
def containsSub : List Char → List Char → Bool
  | hay, needle =>
    if startsWithChars needle hay then true
    else
      match hay with
      | [] => false
      | _ :: t => containsSub t needle

/-- Python `str.lower()` restricted to ASCII, which covers every string
appearing in the cue tables and the claims. -/
def lowerStr (s : String) : String := ⟨s.data.map Char.toLower⟩

/-- Python `needle in hay` substring test. -/
def strIn (needle hay : String) : Bool := containsSub hay.data needle.data

/-- Word characters of the default sklearn token pattern (ASCII part of
the regex class used by `TfidfVectorizer`). -/
def isWordChar (c : Char) : Bool := c.isAlphanum || c = '_'

/-- Accumulating splitter returning maximal runs of word characters. -/
def runsAux : List Char → List Char → List (List Char)
  | [], acc => if acc.isEmpty then [] else [acc.reverse]
  | c :: cs, acc =>
    if isWordChar c then runsAux cs (c :: acc)
    else if acc.isEmpty then runsAux cs []
    else acc.reverse :: runsAux cs []

/-- Tokenizer of `TfidfVectorizer` as configured in predict.py: fold to
lower case, split into maximal word-character runs, keep runs of length
at least two (default token pattern, unigrams only). -/
def tokenize (s : String) : List String :=
  ((runsAux (lowerStr s).data []).filter (fun r => 2 ≤ r.length)).map
    (fun r => String.mk r)

/-- The `tfidf` part of the JSON model artifact. -/
structure TfIdf where
  vocabulary : List (String × Nat)
  idf_weights : List ℚ
deriving DecidableEq

/-- The `classifier` part of the JSON model artifact. -/
structure Classifier where
  coefficients : List (List ℚ)
  intercepts : List ℚ
  classes : List String
deriving DecidableEq

/-- The complexity model artifact (metadata omitted: predict.py reads it
only for display). -/
structure Model where
  tfidf : TfIdf
  classifier : Classifier
deriving DecidableEq

/-- Validity of an explicit vocabulary as checked by sklearn before a
transform: the token keys form a mapping (no duplicate keys, as in a
Python dict) and the indices are exactly a permutation of 0..n-1. -/
def vocabOk (v : List (String × Nat)) : Prop :=
  (v.map Prod.fst).Nodup ∧ List.Perm (v.map Prod.snd) (List.range v.length)

instance (v : List (String × Nat)) : Decidable (vocabOk v) := by
  unfold vocabOk; infer_instance

/-- Term frequency of a token in the token list of a document. -/
def tf (tokens : List String) (t : String) : ℕ := tokens.count t

/-- Raw tf·idf value at vocabulary index `j`. -/
def rawAt (vocab : List (String × Nat)) (idf : List ℚ) (tokens : List String)
    (j : ℕ) : ℚ :=
  match vocab.find? (fun p => p.2 = j) with
  | some p => (tf tokens p.1 : ℚ) * idf.getD j 0
  | none => 0

/-- Raw tf·idf vector of a message (before L2 normalization). -/
def rawVec (t : TfIdf) (message : String) : List ℚ :=
  (List.range t.vocabulary.length).map
    (rawAt t.vocabulary t.idf_weights (tokenize message))

/-- L2 normalization as performed by sklearn: divide by the Euclidean
norm unless the norm is zero, in which case the vector is returned
unchanged (all zeros), avoiding a division by zero. -/
noncomputable def l2normalize (v : List ℚ) : List ℝ :=
  if (v.map (fun x : ℚ => ((x : ℝ)) ^ 2)).sum = 0 then v.map (fun x : ℚ => (x : ℝ))
  else v.map (fun x : ℚ => (x : ℝ) / Real.sqrt ((v.map (fun y : ℚ => ((y : ℝ)) ^ 2)).sum))

/-- The vectorization stage of predict.py lines 39-42: construct the
vectorizer over the artifact vocabulary, install the idf weights (the
sklearn setter validates the vocabulary and the idf length), transform
the message, densify. -/
noncomputable def transform (t : TfIdf) (message : String) :
    Except String (List ℝ) :=
  if vocabOk t.vocabulary then
    if t.idf_weights.length = t.vocabulary.length then
      .ok (l2normalize (rawVec t message))
    else .error "idf length must be equal to vocabulary size"
  else .error "invalid vocabulary"

/-- Dot product over `ℝ` (numpy `np.dot` on equal-length 1-D arrays). -/
noncomputable def dotR (xs ys : List ℝ) : ℝ := (List.zipWith (· * ·) xs ys).sum

/-- Linear scorer, predict.py lines 43-46: `scores = np.dot(coefs,
X_array) + intercepts`.  numpy raises a shape error when a coefficient
row does not match the feature length or when the dot result and the
intercepts disagree in length (length-one numpy broadcasting is not
modelled; no claim and no artifact of this repository exercises it). -/
noncomputable def linScores (m : Model) (message : String) :
    Except String (List ℝ) := do
  let X ← transform m.tfidf message
  let coefs := m.classifier.coefficients
  if coefs.all (fun row => row.length = X.length) then
    let dots := coefs.map (fun row => dotR (row.map (fun q : ℚ => (q : ℝ))) X)
    if dots.length = m.classifier.intercepts.length then
      .ok (List.zipWith (· + ·) dots
        (m.classifier.intercepts.map (fun q : ℚ => (q : ℝ))))
    else .error "operands could not be broadcast together"
  else .error "shapes not aligned"

/-- Python `classes.index(label) if label in classes else fallback`. -/
def idxOr (classes : List String) (label : String) (fallback : ℕ) : ℕ :=
  if label ∈ classes then classes.indexOf label else fallback

/-- The multistep cue table of predict.py line 51. -/
def multistep_cues : List String :=
  [" then ", " and then ", ", then ", "; then ", " after ", " followed by ",
   " first ", " second ", " third "]

/-- The complex cue table of predict.py line 52. -/
def complex_cues : List String :=
  ["oauth", "oauth2", "oidc", "migrate", "migration", "deploy", "docker",
   "kubectl", "k8s", "s3", "pipeline", "airflow", "terraform", "ansible",
   "kafka", "stripe", "payment", "upload", "script", "bash", "nginx", "logs"]

/-- The padded lowercased text of predict.py line 47. -/
def paddedText (message : String) : String := " " ++ lowerStr message ++ " "

/-- Python `scores[i] += b` on a numpy vector: in-bounds update or an
IndexError.  A `classes.index` result and the literal fallbacks are
never negative, so only the upper bound is checked. -/
noncomputable def bumpAt (l : List ℝ) (i : ℕ) (b : ℝ) :
    Except String (List ℝ) :=
  if i < l.length then .ok (l.set i (l.getD i 0 + b))
  else .error "index out of bounds"

/-- Heuristic overlay, predict.py lines 47-56: one bonus of +1.0 on the
multistep index if any multistep cue occurs in the padded text, then one
bonus of +1.5 on the complex index if any complex cue occurs.  The
unused `idx_simple` of line 48 is dead code and omitted. -/
noncomputable def overlay (classes : List String) (message : String)
    (scores : List ℝ) : Except String (List ℝ) := do
  let text := paddedText message
  let idx_complex := idxOr classes "complex" 1
  let idx_multistep := idxOr classes "multistep" 2
  let s1 ← if multistep_cues.any (fun c => strIn c text) then
      bumpAt scores idx_multistep 1
    else .ok scores
  if complex_cues.any (fun c => strIn c text) then bumpAt s1 idx_complex (3/2)
  else .ok s1

/-- Maximum of a real list (`np.max`; the empty case never reaches this
value because callers guard it). -/
noncomputable def maxList : List ℝ → ℝ
  | [] => 0
  | x :: xs => xs.foldl max x

/-- Numerically stable softmax of predict.py lines 21-24: subtract the
maximum, exponentiate, normalize by the sum. -/
noncomputable def softmax (x : List ℝ) : List ℝ :=
  let e := x.map (fun v => Real.exp (v - maxList x))
  e.map (fun v => v / e.sum)

/-- First index of the maximum (`np.argmax`, first occurrence). -/
noncomputable def argmaxIdx : List ℝ → ℕ
  | [] => 0
  | x :: xs => if x < maxList (x :: xs) then argmaxIdx xs + 1 else 0

/-- A prediction result: label, confidence, and the probabilities
mapping built from class label to probability (a Python dict, modelled
as the association list the dict comprehension of line 62 enumerates;
for duplicate-free class lists the two coincide). -/
structure Pred where
  label : String
  confidence : ℝ
  probabilities : List (String × ℝ)

/-- The full `predict` of predict.py lines 38-63. -/
noncomputable def predict (m : Model) (message : String) :
    Except String Pred := do
  let scoresRaw ← linScores m message
  let classes := m.classifier.classes
  let scores ← overlay classes message scoresRaw
  if scores.isEmpty then .error "zero-size array reduction"
  else
    let probs := softmax scores
    let pred_idx := argmaxIdx probs
    if hp : pred_idx < classes.length then
      if classes.length ≤ probs.length then
        .ok { label := classes.get ⟨pred_idx, hp⟩,
              confidence := probs.getD pred_idx 0,
              probabilities := (List.range classes.length).map
                (fun i => (classes.getD i "", probs.getD i 0)) }
      else .error "list index out of range"
    else .error "list index out of range"

/-- The loader of predict.py lines 26-36: abort when the artifact file
is missing, otherwise parse the JSON and return it; the parsed artifact
is not validated in any way.  The file system is abstracted as the
optional parsed content of the model path. -/
def load_model (file : Option Model) : Except String Model :=
  match file with
  | none => .error "Model not found"
  | some m => .ok m

/-! General lemmas about `maxList`, `argmaxIdx` and `softmax`. -/

theorem foldl_max_init (ys : List ℝ) :
    ∀ a b : ℝ, ys.foldl max (max a b) = max a (ys.foldl max b) := by
  induction ys with
  | nil => intro a b; rfl
  | cons c ys ih =>
    intro a b
    rw [List.foldl_cons, List.foldl_cons, max_assoc, ih]

theorem maxList_cons (x : ℝ) (xs : List ℝ) (h : xs ≠ []) :
    maxList (x :: xs) = max x (maxList xs) := by
  match xs, h with
  | y :: ys, _ =>
    show (y :: ys).foldl max x = _
    rw [List.foldl_cons, foldl_max_init]
    rfl

theorem le_maxList (l : List ℝ) (x : ℝ) (hx : x ∈ l) : x ≤ maxList l := by
  induction l with
  | nil => cases hx
  | cons a l ih =>
    rcases List.mem_cons.1 hx with h | h
    · subst h
      cases l with
      | nil => exact le_of_eq rfl
      | cons b l => rw [maxList_cons _ _ (by simp)]; exact le_max_left _ _
    · cases l with
      | nil => cases h
      | cons b l =>
        rw [maxList_cons _ _ (by simp)]
        exact le_trans (ih h) (le_max_right _ _)

theorem argmaxIdx_lt_length (l : List ℝ) (h : l ≠ []) :
    argmaxIdx l < l.length := by
  induction l with
  | nil => cases h rfl
  | cons x xs ih =>
    show (if x < maxList (x :: xs) then argmaxIdx xs + 1 else 0) < xs.length + 1
    split
    · rename_i hlt
      cases xs with
      | nil => exact absurd hlt (by simp [maxList])
      | cons y ys =>
        exact Nat.succ_lt_succ (ih (by simp))
    · exact Nat.succ_pos _

theorem getD_argmaxIdx (l : List ℝ) (h : l ≠ []) :
    l.getD (argmaxIdx l) 0 = maxList l := by
  induction l with
  | nil => cases h rfl
  | cons x xs ih =>
    show List.getD (x :: xs) (if x < maxList (x :: xs) then argmaxIdx xs + 1 else 0) 0 = _
    split
    · rename_i hlt
      cases xs with
      | nil => exact absurd hlt (by simp [maxList])
      | cons y ys =>
        have hne : (y :: ys) ≠ ([] : List ℝ) := by simp
        have hmax : maxList (x :: y :: ys) = maxList (y :: ys) := by
          rw [maxList_cons _ _ hne] at hlt ⊢
          have hxm : x ≤ maxList (y :: ys) := by
            by_contra hc
            push_neg at hc
            rw [max_eq_left (le_of_lt hc)] at hlt
            exact lt_irrefl _ hlt
          exact max_eq_right hxm
        rw [hmax]
        exact ih hne
    · rename_i hnlt
      have h1 : x ≤ maxList (x :: xs) := le_maxList _ _ (List.mem_cons_self _ _)
      have h2 : maxList (x :: xs) ≤ x := le_of_not_lt hnlt
      exact le_antisymm h1 h2

theorem sum_map_div (l : List ℝ) (c : ℝ) :
    (l.map (fun v => v / c)).sum = l.sum / c := by
  induction l with
  | nil => simp
  | cons a l ih => simp [ih, add_div]

theorem maxList_map (f : ℝ → ℝ) (hf : Monotone f) (l : List ℝ) (h : l ≠ []) :
    maxList (l.map f) = f (maxList l) := by
  induction l with
  | nil => cases h rfl
  | cons x xs ih =>
    cases xs with
    | nil => rfl
    | cons y ys =>
      have hne : (y :: ys) ≠ ([] : List ℝ) := by simp
      have hne2 : ((y :: ys).map f) ≠ ([] : List ℝ) := by simp
      rw [List.map_cons, maxList_cons _ _ hne2, ih hne,
        maxList_cons _ _ hne, hf.map_max]

theorem argmaxIdx_map_strictMono (f : ℝ → ℝ) (hf : StrictMono f) :
    ∀ l : List ℝ, argmaxIdx (l.map f) = argmaxIdx l := by
  intro l
  induction l with
  | nil => rfl
  | cons x xs ih =>
    cases xs with
    | nil => simp [argmaxIdx, maxList]
    | cons y ys =>
      show (if f x < maxList (f x :: (y :: ys).map f) then argmaxIdx ((y :: ys).map f) + 1 else 0)
          = (if x < maxList (x :: y :: ys) then argmaxIdx (y :: ys) + 1 else 0)
      have hmm : maxList (f x :: (y :: ys).map f) = f (maxList (x :: y :: ys)) := by
        have := maxList_map f hf.monotone (x :: y :: ys) (by simp)
        simpa using this
      rw [hmm]
      by_cases hc : x < maxList (x :: y :: ys)
      · rw [if_pos (hf hc), if_pos hc, ih]
      · rw [if_neg (fun h => hc (hf.lt_iff_lt.mp h)), if_neg hc]

theorem softmax_eq_map (x : List ℝ) :
    softmax x = x.map
      (fun v => Real.exp (v - maxList x) /
        (x.map (fun w => Real.exp (w - maxList x))).sum) := by
  unfold softmax
  rw [List.map_map]
  rfl

theorem expSum_pos (x : List ℝ) (h : x ≠ []) :
    0 < (x.map (fun w => Real.exp (w - maxList x))).sum := by
  apply List.sum_pos
  · intro y hy
    rcases List.mem_map.1 hy with ⟨w, _, rfl⟩
    exact Real.exp_pos _
  · simpa using h

theorem softmax_length (x : List ℝ) : (softmax x).length = x.length := by
  rw [softmax_eq_map, List.length_map]

theorem softmax_getD (x : List ℝ) (i : ℕ) (hi : i < x.length) :
    (softmax x).getD i 0 =
      Real.exp (x.getD i 0 - maxList x) /
        (x.map (fun w => Real.exp (w - maxList x))).sum := by
  rw [softmax_eq_map]
  rw [List.getD_eq_getElem _ _ (by simpa using hi), List.getElem_map,
    List.getD_eq_getElem _ _ hi]

theorem softmax_sum (x : List ℝ) (h : x ≠ []) : (softmax x).sum = 1 := by
  unfold softmax
  rw [sum_map_div]
  exact div_self (ne_of_gt (by simpa using expSum_pos x h))

theorem softmax_strictMono (x : List ℝ) (h : x ≠ []) (a b : ℕ)
    (ha : a < x.length) (hb : b < x.length)
    (hab : x.getD b 0 < x.getD a 0) :
    (softmax x).getD b 0 < (softmax x).getD a 0 := by
  rw [softmax_getD x a ha, softmax_getD x b hb]
  exact (div_lt_div_iff_of_pos_right (expSum_pos x h)).2 (Real.exp_lt_exp.2 (by linarith))

theorem argmaxIdx_softmax (x : List ℝ) (h : x ≠ []) :
    argmaxIdx (softmax x) = argmaxIdx x := by
  rw [softmax_eq_map]
  apply argmaxIdx_map_strictMono
  intro v w hvw
  exact (div_lt_div_iff_of_pos_right (expSum_pos x h)).2 (Real.exp_lt_exp.2 (by linarith))

/-- Binding a success just applies the continuation. -/
@[simp] theorem bind_ok {α β : Type} (a : α) (f : α → Except String β) :
    (do let x ← Except.ok a; f x : Except String β) = f a := rfl

/-- Structural characterization of a successful call of `predict`: when
the linear scorer and the overlay succeed and the class list matches the
score vector, the result is the argmax class with its softmax
probability and the full per-class probability table. -/
theorem predict_ok (m : Model) (message : String) (s0 scores : List ℝ)
    (hlin : linScores m message = .ok s0)
    (hov : overlay m.classifier.classes message s0 = .ok scores)
    (hne : scores ≠ [])
    (hlen : m.classifier.classes.length = scores.length) :
    predict m message = .ok {
      label := m.classifier.classes.getD (argmaxIdx scores) "",
      confidence := (softmax scores).getD (argmaxIdx scores) 0,
      probabilities := (List.range m.classifier.classes.length).map
        (fun i => (m.classifier.classes.getD i "", (softmax scores).getD i 0)) } := by
  rw [predict, hlin]
  simp only [bind_ok]
  rw [hov]
  simp only [bind_ok]
  have hie : scores.isEmpty = false := by
    cases scores with
    | nil => cases hne rfl
    | cons a l => rfl
  rw [hie]
  simp only [Bool.false_eq_true, if_false]
  have hax : argmaxIdx (softmax scores) = argmaxIdx scores := argmaxIdx_softmax _ hne
  have hp : argmaxIdx (softmax scores) < m.classifier.classes.length := by
    rw [hax, hlen]
    exact argmaxIdx_lt_length _ hne
  rw [dif_pos hp]
  rw [if_pos (by rw [softmax_length, ← hlen])]
  have : m.classifier.classes.get ⟨argmaxIdx (softmax scores), hp⟩ =
      m.classifier.classes.getD (argmaxIdx scores) "" := by
    rw [List.getD_eq_getElem _ _ (hax ▸ hp)]
    simp [hax]
  rw [this, hax]

/-! The fixture artifact of the spec (section 8) and its evaluation. -/

/-- The fixture artifact: vocabulary deploy/docker, unit idf weights,
three classes with coefficients concentrated on the complex row. -/
def fixtureModel : Model :=
  { tfidf := { vocabulary := [("deploy", 0), ("docker", 1)], idf_weights := [1, 1] },
    classifier := { coefficients := [[0,0],[1,1],[0,0]], intercepts := [0,0,0],
                    classes := ["simple", "complex", "multistep"] } }

theorem rawVec_fixture : rawVec fixtureModel.tfidf "deploy docker" = [1, 1] := by
  have ht : tokenize "deploy docker" = ["deploy", "docker"] := by decide
  rw [rawVec]
  simp only [fixtureModel, ht]
  norm_num [List.range_succ, rawAt, List.find?, tf, List.count_cons]
  decide

theorem transform_fixture : transform fixtureModel.tfidf "deploy docker" =
    .ok [1 / Real.sqrt 2, 1 / Real.sqrt 2] := by
  rw [transform, if_pos (by decide), if_pos (by decide), rawVec_fixture]
  rw [l2normalize]
  norm_num

theorem sqrt_two_inv_add : (Real.sqrt 2)⁻¹ + (Real.sqrt 2)⁻¹ = Real.sqrt 2 := by
  have h2 : Real.sqrt 2 ≠ 0 := by positivity
  rw [← two_mul]
  rw [mul_inv_eq_iff_eq_mul₀ h2]
  rw [Real.mul_self_sqrt (by norm_num : (0:ℝ) ≤ 2)]

theorem linScores_fixture :
    linScores fixtureModel "deploy docker" = .ok [0, Real.sqrt 2, 0] := by
  rw [linScores, transform_fixture]
  simp only [bind_ok, fixtureModel]
  norm_num [dotR]
  rw [sqrt_two_inv_add]

theorem overlay_fixture :
    overlay fixtureModel.classifier.classes "deploy docker" [0, Real.sqrt 2, 0] =
      .ok [0, Real.sqrt 2 + 3/2, 0] := by
  have hm : (multistep_cues.any fun c => strIn c (paddedText "deploy docker")) = false := by
    decide
  have hc : (complex_cues.any fun c => strIn c (paddedText "deploy docker")) = true := by
    decide
  have hi : idxOr fixtureModel.classifier.classes "complex" 1 = 1 := by decide
  simp only [overlay, hm, hc, hi, Bool.false_eq_true, if_false, if_true, bind_ok]
  rw [bumpAt, if_pos (by norm_num)]
  norm_num

theorem argmax_fix : argmaxIdx [(0:ℝ), Real.sqrt 2 + 3/2, 0] = 1 := by
  have hs : (0:ℝ) < Real.sqrt 2 + 3/2 := by positivity
  have hm1 : maxList [(0:ℝ), Real.sqrt 2 + 3/2, 0] = Real.sqrt 2 + 3/2 := by
    show List.foldl max 0 [Real.sqrt 2 + 3/2, 0] = _
    rw [List.foldl_cons, List.foldl_cons, List.foldl_nil, max_eq_right hs.le,
      max_eq_left hs.le]
  have hm2 : maxList [Real.sqrt 2 + 3/2, (0:ℝ)] = Real.sqrt 2 + 3/2 := by
    show List.foldl max _ [(0:ℝ)] = _
    rw [List.foldl_cons, List.foldl_nil, max_eq_left hs.le]
  show (if (0:ℝ) < maxList [(0:ℝ), Real.sqrt 2 + 3/2, 0] then
      argmaxIdx [Real.sqrt 2 + 3/2, (0:ℝ)] + 1 else 0) = 1
  rw [hm1, if_pos hs]
  show (if Real.sqrt 2 + 3/2 < maxList [Real.sqrt 2 + 3/2, (0:ℝ)] then
      argmaxIdx [(0:ℝ)] + 1 else 0) + 1 = 1
  rw [hm2, if_neg (lt_irrefl _)]

theorem predict_label_fixture :
    ∃ r, predict fixtureModel "deploy docker" = .ok r ∧ r.label = "complex" := by
  refine ⟨_, predict_ok fixtureModel "deploy docker" _ _ linScores_fixture
    overlay_fixture (by simp) (by simp [fixtureModel]), ?_⟩
  show fixtureModel.classifier.classes.getD (argmaxIdx [(0:ℝ), Real.sqrt 2 + 3/2, 0]) "" =
    "complex"
  rw [argmax_fix]
  rfl

/-- C1: on the fixture artifact with vocabulary deploy/docker, unit idf
weights, coefficients [[0,0],[1,1],[0,0]] over classes
[simple, complex, multistep] and zero intercepts, the text
"deploy docker" vectorizes to the L2-normalized feature vector
[1/sqrt 2, 1/sqrt 2] (the 0.707 entries of the claim), the raw logits
are [0, sqrt 2, 0] (sqrt 2 = 1.414...), the heuristic overlay adds +1.5
to the complex logit giving adjusted logits [0, sqrt 2 + 3/2, 0]
(2.914...), and the predicted label is "complex". -/
theorem C1_fixture_classification :
    transform fixtureModel.tfidf "deploy docker" =
      .ok [1 / Real.sqrt 2, 1 / Real.sqrt 2] ∧
    linScores fixtureModel "deploy docker" = .ok [0, Real.sqrt 2, 0] ∧
    overlay fixtureModel.classifier.classes "deploy docker" [0, Real.sqrt 2, 0] =
      .ok [0, Real.sqrt 2 + 3/2, 0] ∧
    ∃ r, predict fixtureModel "deploy docker" = .ok r ∧ r.label = "complex" :=
  ⟨transform_fixture, linScores_fixture, overlay_fixture, predict_label_fixture⟩

/-- Binding an error short-circuits. -/
@[simp] theorem bind_error {α β : Type} (e : String) (f : α → Except String β) :
    (do let x ← (Except.error e : Except String α); f x : Except String β) =
      .error e := rfl

theorem l2normalize_length (v : List ℚ) : (l2normalize v).length = v.length := by
  rw [l2normalize]
  split <;> rw [List.length_map]

theorem rawVec_length (t : TfIdf) (message : String) :
    (rawVec t message).length = t.vocabulary.length := by
  rw [rawVec, List.length_map, List.length_range]

/-- C5: the softmax of the decision layer is strictly order-preserving
(a strictly larger logit yields a strictly larger probability) and its
output sums to exactly 1 for every nonempty logit vector. -/
theorem C5_softmax_order_preserving (x : List ℝ) (hx : x ≠ []) (a b : ℕ)
    (ha : a < x.length) (hb : b < x.length)
    (hab : x.getD b 0 < x.getD a 0) :
    (softmax x).getD b 0 < (softmax x).getD a 0 ∧ (softmax x).sum = 1 :=
  ⟨softmax_strictMono x hx a b ha hb hab, softmax_sum x hx⟩

/-- Witness for C5 on the concrete logits [0, 2, 1] with a = 1, b = 2. -/
theorem C5_softmax_witness :
    (softmax [(0:ℝ), 2, 1]).getD 2 0 < (softmax [(0:ℝ), 2, 1]).getD 1 0 ∧
    (softmax [(0:ℝ), 2, 1]).sum = 1 :=
  C5_softmax_order_preserving [0, 2, 1] (by simp) 1 2 (by simp) (by simp)
    (by norm_num)

/-- C8: the tokenizer-plus-vectorizer pipeline is a pure function of the
artifact tfidf data and the input text: repeated invocations agree, and
two loaded models with the same tfidf component vectorize every text
identically (there is no hidden mutable state, and inference never
mutates the artifact). -/
theorem C8_vectorizer_pure (m1 m2 : Model) (text : String)
    (h : m1.tfidf = m2.tfidf) :
    transform m1.tfidf text = transform m1.tfidf text ∧
    transform m1.tfidf text = transform m2.tfidf text := ⟨rfl, by rw [h]⟩

/-- Any cue of a table matches the padded text exactly when the count of
matching cues is positive. -/
theorem any_iff_filter_pos (l : List String) (p : String → Bool) :
    l.any p = true ↔ 0 < (l.filter p).length := by
  rw [List.any_eq_true, List.length_pos]
  constructor
  · rintro ⟨x, hx, hpx⟩
    intro hnil
    rw [List.filter_eq_nil_iff] at hnil
    exact hnil x hx hpx
  · intro hne
    rcases List.exists_mem_of_ne_nil _ hne with ⟨x, hx⟩
    rcases List.mem_filter.1 hx with ⟨h1, h2⟩
    exact ⟨x, h1, h2⟩

/-- C2 (amended): for every cue class the bonus is added at most once
per call, never once per matching cue.  For any text whose padded form
matches kc distinct complex cues and km distinct multistep cues, the
overlay result depends on kc and km only through whether each is at
least 1: the multistep logit gains a single +1.0 when 1 ≤ km and the
complex logit a single +1.5 when 1 ≤ kc, for every magnitude of kc and
km, including texts matching both cue kinds. -/
theorem C2_overlay_single_bonus (classes : List String) (text : String)
    (scores : List ℝ) (kc km : ℕ)
    (hkc : (complex_cues.filter (fun c => strIn c (paddedText text))).length = kc)
    (hkm : (multistep_cues.filter (fun c => strIn c (paddedText text))).length = km)
    (hic : idxOr classes "complex" 1 < scores.length)
    (him : idxOr classes "multistep" 2 < scores.length) :
    overlay classes text scores = .ok
      (let s1 := if 1 ≤ km then
          scores.set (idxOr classes "multistep" 2)
            (scores.getD (idxOr classes "multistep" 2) 0 + 1)
        else scores
      if 1 ≤ kc then
        s1.set (idxOr classes "complex" 1)
          (s1.getD (idxOr classes "complex" 1) 0 + 3/2)
      else s1) := by
  have hma : (multistep_cues.any fun c => strIn c (paddedText text)) =
      decide (1 ≤ km) := by
    by_cases h1 : 1 ≤ km
    · rw [decide_eq_true h1]
      rw [any_iff_filter_pos, hkm]
      exact h1
    · rw [decide_eq_false h1]
      rw [← Bool.not_eq_true]
      rw [any_iff_filter_pos, hkm]
      omega
  have hca : (complex_cues.any fun c => strIn c (paddedText text)) =
      decide (1 ≤ kc) := by
    by_cases h1 : 1 ≤ kc
    · rw [decide_eq_true h1]
      rw [any_iff_filter_pos, hkc]
      exact h1
    · rw [decide_eq_false h1]
      rw [← Bool.not_eq_true]
      rw [any_iff_filter_pos, hkc]
      omega
  rw [overlay]
  dsimp only
  by_cases h1 : 1 ≤ km <;> by_cases h2 : 1 ≤ kc
  · simp only [hma, hca, decide_eq_true h1, decide_eq_true h2, if_true, bind_ok]
    rw [bumpAt, if_pos him]
    simp only [bind_ok, if_pos h1, if_pos h2]
    rw [bumpAt, if_pos (by rw [List.length_set]; exact hic)]
  · simp only [hma, hca, decide_eq_true h1, decide_eq_false h2,
      Bool.false_eq_true, if_true, if_false, bind_ok]
    rw [bumpAt, if_pos him]
    simp only [bind_ok, if_pos h1, if_neg h2]
  · simp only [hma, hca, decide_eq_false h1, decide_eq_true h2,
      Bool.false_eq_true, if_true, if_false, bind_ok]
    simp only [if_neg h1, if_pos h2]
    rw [bumpAt, if_pos hic]
  · simp only [hma, hca, decide_eq_false h1, decide_eq_false h2,
      Bool.false_eq_true, if_false, bind_ok]
    simp only [if_neg h1, if_neg h2]

/-- C2 counterexample: in the padded text of "deploy docker" exactly two
distinct complex cues occur (deploy and docker), yet the overlay raises
the complex logit by 1.5, not by 2 times 1.5 as the claim demands. -/
theorem C2_overlay_counterexample :
    (complex_cues.filter (fun c => strIn c (paddedText "deploy docker"))).length = 2 ∧
    overlay ["simple", "complex", "multistep"] "deploy docker" [0, 0, 0] =
      .ok [0, 3/2, 0] ∧
    (3/2 : ℝ) ≠ 2 * (3/2) := by
  refine ⟨by decide, ?_, by norm_num⟩
  have hm : (multistep_cues.any fun c => strIn c (paddedText "deploy docker")) = false := by
    decide
  have hc : (complex_cues.any fun c => strIn c (paddedText "deploy docker")) = true := by
    decide
  have hi : idxOr ["simple", "complex", "multistep"] "complex" 1 = 1 := by decide
  simp only [overlay, hm, hc, hi, Bool.false_eq_true, if_false, if_true, bind_ok]
  rw [bumpAt, if_pos (by norm_num)]
  norm_num

/-- Witness for C2 on the mixed-cue text "deploy docker and then test"
(kc = 2 complex cues, km = 2 multistep cues) over zero scores and the
standard class list: each logit gains its bonus exactly once. -/
theorem C2_overlay_witness :
    overlay ["simple", "complex", "multistep"] "deploy docker and then test"
        [(0:ℝ), 0, 0] = .ok
      (let s1 := if 1 ≤ 2 then
          ([(0:ℝ), 0, 0]).set
            (idxOr ["simple", "complex", "multistep"] "multistep" 2)
            (([(0:ℝ), 0, 0]).getD
              (idxOr ["simple", "complex", "multistep"] "multistep" 2) 0 + 1)
        else [(0:ℝ), 0, 0]
      if 1 ≤ 2 then
        s1.set (idxOr ["simple", "complex", "multistep"] "complex" 1)
          (s1.getD (idxOr ["simple", "complex", "multistep"] "complex" 1) 0 + 3/2)
      else s1) :=
  C2_overlay_single_bonus ["simple", "complex", "multistep"]
    "deploy docker and then test" [(0:ℝ), 0, 0] 2 2 (by decide) (by decide)
    (by simp [idxOr]) (by simp [idxOr])

/-- An artifact whose coefficient matrix has two rows while the class
list has three entries, sharing the fixture vocabulary. -/
def badModel : Model :=
  { tfidf := { vocabulary := [("deploy", 0), ("docker", 1)], idf_weights := [1, 1] },
    classifier := { coefficients := [[1,0],[0,1]], intercepts := [0,0,0],
                    classes := ["simple", "complex", "multistep"] } }

/-- C3 counterexample: the loader happily returns the artifact whose
coefficient row count (2) differs from the class count (3); it performs
no validation at all. -/
theorem C3_loader_counterexample :
    badModel.classifier.coefficients.length = 2 ∧
    badModel.classifier.classes.length = 3 ∧
    load_model (some badModel) = .ok badModel := ⟨rfl, rfl, rfl⟩

/-- C3 (amended): the loader returns every parsed artifact unvalidated;
a coefficients/classes row mismatch is not rejected at load time and
instead surfaces as a numpy broadcast error on every predict call. -/
theorem C3_loader_no_validation :
    (∀ m : Model, load_model (some m) = .ok m) ∧
    (∀ text : String,
      predict badModel text = .error "operands could not be broadcast together") := by
  constructor
  · intro m; rfl
  · intro text
    rw [predict, linScores, transform, if_pos (by decide), if_pos (by decide)]
    simp only [bind_ok]
    have hXlen : (l2normalize (rawVec badModel.tfidf text)).length = 2 := by
      rw [l2normalize_length, rawVec_length]; rfl
    have hcond : (badModel.classifier.coefficients.all
        (fun row => row.length = (l2normalize (rawVec badModel.tfidf text)).length)) =
          true := by
      rw [List.all_eq_true]
      intro row hr
      have hr2 : row ∈ [[1,0],[0,1]] := hr
      simp only [decide_eq_true_eq]
      rw [hXlen]
      fin_cases hr2 <;> rfl
    rw [if_pos hcond]
    rw [if_neg (by rw [List.length_map]; decide)]
    rfl

/-- An artifact with only two classes, neither of them "multistep". -/
def twoClassModel : Model :=
  { tfidf := { vocabulary := [("deploy", 0), ("docker", 1)], idf_weights := [1, 1] },
    classifier := { coefficients := [[1,0],[0,1]], intercepts := [0,0],
                    classes := ["simple", "complex"] } }

/-- C10: the overlay bonuses fall back to the fixed indices 1 and 2 when
the labels complex and multistep are absent from the class list: part
one shows the +1.5 bonus lands on index 1 whatever label sits there;
part two shows that for a well-formed artifact with at most two classes
and no multistep label, any text containing a multistep cue makes
predict fail with an out-of-range index error. -/
theorem C10_fallback_indices :
    (∀ (classes : List String) (text : String) (scores : List ℝ),
      "complex" ∉ classes →
      (complex_cues.any fun c => strIn c (paddedText text)) = true →
      (multistep_cues.any fun c => strIn c (paddedText text)) = false →
      1 < scores.length →
      overlay classes text scores = .ok (scores.set 1 (scores.getD 1 0 + 3/2))) ∧
    (∀ (m : Model) (text : String),
      vocabOk m.tfidf.vocabulary →
      m.tfidf.idf_weights.length = m.tfidf.vocabulary.length →
      (m.classifier.coefficients.all
        (fun row => row.length = m.tfidf.vocabulary.length)) = true →
      m.classifier.coefficients.length = m.classifier.intercepts.length →
      m.classifier.intercepts.length = m.classifier.classes.length →
      m.classifier.classes.length ≤ 2 →
      "multistep" ∉ m.classifier.classes →
      (multistep_cues.any fun c => strIn c (paddedText text)) = true →
      ∃ e, predict m text = .error e) := by
  constructor
  · intro classes text scores hnc hc hm hi
    have hidx : idxOr classes "complex" 1 = 1 := by rw [idxOr, if_neg hnc]
    rw [overlay]
    simp only [hm, hc, Bool.false_eq_true, if_false, if_true, bind_ok]
    rw [hidx, bumpAt, if_pos hi]
  · intro m text hv hil hall hci hic hle hnm hcue
    rw [predict, linScores, transform, if_pos hv, if_pos hil]
    simp only [bind_ok]
    have hXlen : (l2normalize (rawVec m.tfidf text)).length =
        m.tfidf.vocabulary.length := by
      rw [l2normalize_length, rawVec_length]
    have hall2 : (m.classifier.coefficients.all
        (fun row => row.length = (l2normalize (rawVec m.tfidf text)).length)) = true := by
      rw [List.all_eq_true] at hall ⊢
      intro row hr
      have hrow := hall row hr
      simp only [decide_eq_true_eq] at hrow ⊢
      rw [hXlen, hrow]
    rw [if_pos hall2]
    rw [if_pos (by rw [List.length_map]; exact hci)]
    simp only [bind_ok]
    rw [overlay]
    simp only [hcue, if_true, bind_ok]
    have hslen : (List.zipWith (· + ·)
        (m.classifier.coefficients.map
          (fun row => dotR (row.map (fun q : ℚ => (q : ℝ)))
            (l2normalize (rawVec m.tfidf text))))
        (m.classifier.intercepts.map (fun q : ℚ => (q : ℝ)))).length ≤ 2 := by
      rw [List.length_zipWith, List.length_map, List.length_map, hci, min_self, hic]
      exact hle
    have hidx : idxOr m.classifier.classes "multistep" 2 = 2 := by
      rw [idxOr, if_neg hnm]
    rw [hidx, bumpAt, if_neg (by omega)]
    exact ⟨_, rfl⟩

/-- Witness for C10: part one at a class list without the complex label,
part two at the two-class artifact and a text containing the cue then. -/
theorem C10_fallback_witness :
    overlay ["alpha", "beta", "gamma"] "docker" [(0:ℝ), 0, 0] =
      .ok (([(0:ℝ), 0, 0]).set 1 (([(0:ℝ), 0, 0]).getD 1 0 + 3/2)) ∧
    ∃ e, predict twoClassModel "a then b" = .error e :=
  ⟨C10_fallback_indices.1 ["alpha", "beta", "gamma"] "docker" [(0:ℝ), 0, 0]
      (by decide) (by decide) (by decide) (by simp),
   C10_fallback_indices.2 twoClassModel "a then b" (by decide) (by decide)
      (by decide) (by decide) (by decide) (by decide) (by decide) (by decide)⟩

/-- With no in-vocabulary token the raw tf-idf vector is all zeros. -/
theorem rawVec_oov (t : TfIdf) (text : String)
    (h : ∀ tok ∈ tokenize text, tok ∉ t.vocabulary.map Prod.fst) :
    rawVec t text = List.replicate t.vocabulary.length 0 := by
  rw [rawVec, List.eq_replicate_iff]
  constructor
  · rw [List.length_map, List.length_range]
  · intro b hb
    rcases List.mem_map.1 hb with ⟨j, hj, rfl⟩
    rw [rawAt]
    cases hf : t.vocabulary.find? (fun p => p.2 = j) with
    | none => rfl
    | some p =>
      have hmem := List.mem_of_find?_eq_some hf
      have hkey : p.1 ∈ t.vocabulary.map Prod.fst := List.mem_map_of_mem _ hmem
      have hz : tf (tokenize text) p.1 = 0 := by
        rw [tf, List.count_eq_zero]
        intro hmem2
        exact h p.1 hmem2 hkey
      show ((tf (tokenize text) p.1 : ℚ)) * t.idf_weights.getD j 0 = 0
      rw [hz]
      simp

/-- Normalizing the zero vector leaves it untouched (no division). -/
theorem l2normalize_zero (n : ℕ) :
    l2normalize (List.replicate n 0) = List.replicate n (0:ℝ) := by
  rw [l2normalize, if_pos]
  · rw [List.map_replicate]
    norm_num
  · rw [List.map_replicate]
    norm_num

/-- With duplicate-free indices, the positional lookup finds exactly
the pair of a member token. -/
theorem find?_index (vocab : List (String × Nat)) (tok : String) (i : ℕ)
    (hnd : (vocab.map Prod.snd).Nodup) (hmem : (tok, i) ∈ vocab) :
    vocab.find? (fun p => p.2 = i) = some (tok, i) := by
  induction vocab with
  | nil => cases hmem
  | cons p vs ih =>
    rw [List.map_cons, List.nodup_cons] at hnd
    rcases List.mem_cons.1 hmem with h | h
    · subst h
      exact List.find?_cons_of_pos _ (by simp)
    · have hi : i ∈ vs.map Prod.snd := by
        have := List.mem_map_of_mem Prod.snd h
        simpa using this
      have hp2 : ¬(p.2 = i) := fun he => hnd.1 (he ▸ hi)
      rw [List.find?_cons_of_neg _ (by simpa using hp2)]
      exact ih hnd.2 h

/-- A token of the text that carries vocabulary index i makes the raw
tf-idf entry at i strictly positive (for positive idf weights). -/
theorem rawVec_getD_pos (t : TfIdf) (text : String)
    (hv : vocabOk t.vocabulary)
    (hil : t.idf_weights.length = t.vocabulary.length)
    (hpos : ∀ q ∈ t.idf_weights, 0 < q)
    (tok : String) (i : ℕ) (htok : tok ∈ tokenize text)
    (hmem : (tok, i) ∈ t.vocabulary) :
    i < t.vocabulary.length ∧ 0 < (rawVec t text).getD i 0 := by
  have hiR : i ∈ List.range t.vocabulary.length := by
    have h1 : i ∈ t.vocabulary.map Prod.snd := by
      have := List.mem_map_of_mem Prod.snd hmem
      simpa using this
    exact hv.2.mem_iff.1 h1
  have hilt : i < t.vocabulary.length := List.mem_range.1 hiR
  refine ⟨hilt, ?_⟩
  have hfind : t.vocabulary.find? (fun p => p.2 = i) = some (tok, i) :=
    find?_index _ _ _ (hv.2.nodup_iff.2 (List.nodup_range _)) hmem
  have hgd : (rawVec t text).getD i 0 =
      rawAt t.vocabulary t.idf_weights (tokenize text) i := by
    rw [rawVec]
    rw [List.getD_eq_getElem _ _ (by simpa using hilt)]
    rw [List.getElem_map]
    rw [List.getElem_range]
  rw [hgd, rawAt, hfind]
  show 0 < ((tf (tokenize text) tok : ℚ)) * t.idf_weights.getD i 0
  apply mul_pos
  · exact_mod_cast List.count_pos_iff.2 htok
  · have hidx : i < t.idf_weights.length := by rw [hil]; exact hilt
    rw [List.getD_eq_getElem _ _ hidx]
    exact hpos _ (List.getElem_mem _)

/-- A strictly positive entry makes the sum of squares positive. -/
theorem sqsum_pos_of_getD_pos (v : List ℚ) (i : ℕ) (hi : i < v.length)
    (hp : 0 < v.getD i 0) :
    0 < (v.map (fun x : ℚ => ((x : ℝ)) ^ 2)).sum := by
  have hmem : v.getD i 0 ∈ v := by
    rw [List.getD_eq_getElem _ _ hi]
    exact List.getElem_mem _
  have hmem2 : ((v.getD i 0 : ℚ) : ℝ) ^ 2 ∈ v.map (fun x : ℚ => ((x : ℝ)) ^ 2) :=
    List.mem_map_of_mem _ hmem
  have hc : (0:ℝ) < ((v.getD i 0 : ℚ) : ℝ) := by exact_mod_cast hp
  calc (0:ℝ) < ((v.getD i 0 : ℚ) : ℝ) ^ 2 := pow_pos hc 2
    _ ≤ _ := List.single_le_sum
        (fun y hy => by
          rcases List.mem_map.1 hy with ⟨x, _, rfl⟩
          positivity) _ hmem2

/-- For a vector with positive square sum, normalization yields a unit
vector. -/
theorem l2normalize_norm_one (v : List ℚ)
    (hS : 0 < (v.map (fun x : ℚ => ((x : ℝ)) ^ 2)).sum) :
    Real.sqrt (((l2normalize v).map (fun x => x ^ 2)).sum) = 1 := by
  rw [l2normalize, if_neg (ne_of_gt hS)]
  rw [List.map_map]
  have hfun : ((fun x => x ^ 2) ∘ fun x : ℚ =>
      (x : ℝ) / Real.sqrt ((v.map (fun y : ℚ => ((y : ℝ)) ^ 2)).sum)) =
      fun x : ℚ => ((x : ℝ)) ^ 2 / ((v.map (fun y : ℚ => ((y : ℝ)) ^ 2)).sum) := by
    funext x
    simp only [Function.comp]
    rw [div_pow, Real.sq_sqrt hS.le]
  rw [hfun]
  have hmm : (v.map fun x : ℚ =>
      ((x : ℝ)) ^ 2 / ((v.map (fun y : ℚ => ((y : ℝ)) ^ 2)).sum)) =
      (v.map (fun x : ℚ => ((x : ℝ)) ^ 2)).map
        (fun t => t / ((v.map (fun y : ℚ => ((y : ℝ)) ^ 2)).sum)) := by
    rw [List.map_map]
    rfl
  rw [hmm, sum_map_div, div_self (ne_of_gt hS), Real.sqrt_one]

/-- C4: for a valid vocabulary with matching, strictly positive idf
weights, the feature vector of any text has Euclidean norm exactly 1
whenever some token of the text is in the vocabulary, and is exactly the
all-zero vector whenever none is (the zero branch of `l2normalize`
returns the vector unscaled, so no division by the zero norm occurs). -/
theorem C4_l2_norm (t : TfIdf) (text : String)
    (hv : vocabOk t.vocabulary)
    (hil : t.idf_weights.length = t.vocabulary.length)
    (hpos : ∀ q ∈ t.idf_weights, 0 < q) :
    ((∃ tok ∈ tokenize text, tok ∈ t.vocabulary.map Prod.fst) →
      ∃ X, transform t text = .ok X ∧
        Real.sqrt ((X.map (fun x => x ^ 2)).sum) = 1) ∧
    ((∀ tok ∈ tokenize text, tok ∉ t.vocabulary.map Prod.fst) →
      transform t text = .ok (List.replicate t.vocabulary.length (0:ℝ))) := by
  constructor
  · rintro ⟨tok, htok, hkey⟩
    rcases List.mem_map.1 hkey with ⟨p, hpmem, hfst⟩
    rcases p with ⟨a, i⟩
    rw [show a = tok from hfst] at hpmem
    obtain ⟨hilt, hgd⟩ := rawVec_getD_pos t text hv hil hpos tok i htok hpmem
    have hS : 0 < ((rawVec t text).map (fun x : ℚ => ((x : ℝ)) ^ 2)).sum := by
      apply sqsum_pos_of_getD_pos _ i _ hgd
      rw [rawVec_length]
      exact hilt
    refine ⟨l2normalize (rawVec t text), ?_, l2normalize_norm_one _ hS⟩
    rw [transform, if_pos hv, if_pos hil]
  · intro h
    rw [transform, if_pos hv, if_pos hil, rawVec_oov t text h, l2normalize_zero]


/-- Witness for C4 at the fixture vocabulary and the text
"deploy docker". -/
theorem C4_l2_norm_witness :
    ((∃ tok ∈ tokenize "deploy docker",
        tok ∈ fixtureModel.tfidf.vocabulary.map Prod.fst) →
      ∃ X, transform fixtureModel.tfidf "deploy docker" = .ok X ∧
        Real.sqrt ((X.map (fun x => x ^ 2)).sum) = 1) ∧
    ((∀ tok ∈ tokenize "deploy docker",
        tok ∉ fixtureModel.tfidf.vocabulary.map Prod.fst) →
      transform fixtureModel.tfidf "deploy docker" =
        .ok (List.replicate fixtureModel.tfidf.vocabulary.length (0:ℝ))) :=
  C4_l2_norm fixtureModel.tfidf "deploy docker" (by decide) (by decide) (by decide)

/-- Dot product against the zero vector vanishes. -/
theorem dotR_replicate_zero (xs : List ℝ) (n : ℕ) :
    dotR xs (List.replicate n 0) = 0 := by
  induction xs generalizing n with
  | nil => simp [dotR]
  | cons a xs ih =>
    cases n with
    | zero => simp [dotR]
    | succ n =>
      rw [List.replicate_succ, dotR, List.zipWith_cons_cons]
      rw [List.sum_cons, mul_zero, zero_add]
      exact ih n

/-- Adding intercepts to a zero score vector returns the intercepts. -/
theorem zipWith_add_zeros (ys : List ℝ) :
    List.zipWith (· + ·) (List.replicate ys.length (0:ℝ)) ys = ys := by
  induction ys with
  | nil => rfl
  | cons y ys ih => simp [List.replicate_succ, ih]

/-- For a text with no in-vocabulary token the raw logits equal the
intercept vector exactly. -/
theorem linScores_oov (m : Model) (text : String)
    (hv : vocabOk m.tfidf.vocabulary)
    (hil : m.tfidf.idf_weights.length = m.tfidf.vocabulary.length)
    (hall : (m.classifier.coefficients.all
      (fun row => row.length = m.tfidf.vocabulary.length)) = true)
    (hci : m.classifier.coefficients.length = m.classifier.intercepts.length)
    (hoov : ∀ tok ∈ tokenize text, tok ∉ m.tfidf.vocabulary.map Prod.fst) :
    linScores m text = .ok (m.classifier.intercepts.map (fun q : ℚ => (q : ℝ))) := by
  rw [linScores, transform, if_pos hv, if_pos hil, rawVec_oov _ _ hoov, l2normalize_zero]
  simp only [bind_ok]
  have hall2 : (m.classifier.coefficients.all
      (fun row => row.length = (List.replicate m.tfidf.vocabulary.length (0:ℝ)).length)) =
        true := by
    rw [List.all_eq_true] at hall ⊢
    intro row hr
    have hrow := hall row hr
    simp only [decide_eq_true_eq] at hrow ⊢
    rw [List.length_replicate, hrow]
  rw [if_pos hall2]
  rw [if_pos (by rw [List.length_map]; exact hci)]
  have hdots : m.classifier.coefficients.map
      (fun row => dotR (row.map (fun q : ℚ => (q : ℝ)))
        (List.replicate m.tfidf.vocabulary.length (0:ℝ))) =
      List.replicate (m.classifier.intercepts.map (fun q : ℚ => (q : ℝ))).length 0 := by
    rw [List.eq_replicate_iff]
    constructor
    · rw [List.length_map, List.length_map, hci]
    · intro b hb
      rcases List.mem_map.1 hb with ⟨row, _, rfl⟩
      exact dotR_replicate_zero _ _
  rw [hdots, zipWith_add_zeros]

/-- The overlay succeeds and preserves length whenever both cue indices
are in bounds. -/
theorem overlay_ok (classes : List String) (text : String) (scores : List ℝ)
    (hcx : idxOr classes "complex" 1 < scores.length)
    (hmu : idxOr classes "multistep" 2 < scores.length) :
    ∃ adj, overlay classes text scores = .ok adj ∧ adj.length = scores.length := by
  rw [overlay]
  cases h1 : (multistep_cues.any fun c => strIn c (paddedText text)) with
  | false =>
    simp only [Bool.false_eq_true, if_false, bind_ok]
    cases h2 : (complex_cues.any fun c => strIn c (paddedText text)) with
    | false =>
      simp only [Bool.false_eq_true, if_false]
      exact ⟨scores, rfl, rfl⟩
    | true =>
      simp only [if_true]
      rw [bumpAt, if_pos hcx]
      exact ⟨_, rfl, List.length_set _ _ _⟩
  | true =>
    simp only [if_true]
    rw [bumpAt, if_pos hmu]
    simp only [bind_ok]
    cases h2 : (complex_cues.any fun c => strIn c (paddedText text)) with
    | false =>
      simp only [Bool.false_eq_true, if_false]
      exact ⟨_, rfl, List.length_set _ _ _⟩
    | true =>
      simp only [if_true]
      rw [bumpAt, if_pos (by rw [List.length_set]; exact hcx)]
      refine ⟨_, rfl, ?_⟩
      rw [List.length_set, List.length_set]


/-- C6: for every artifact whose shapes are consistent and whose overlay
indices are in bounds, a text that is empty or entirely
out-of-vocabulary does not make classify fail: the raw logits equal the
intercepts exactly and the returned label is the argmax class of the
softmax over the intercepts plus whatever cue bonuses match the padded
text. -/
theorem C6_degenerate_input (m : Model) (text : String)
    (hv : vocabOk m.tfidf.vocabulary)
    (hil : m.tfidf.idf_weights.length = m.tfidf.vocabulary.length)
    (hall : (m.classifier.coefficients.all
      (fun row => row.length = m.tfidf.vocabulary.length)) = true)
    (hci : m.classifier.coefficients.length = m.classifier.intercepts.length)
    (hic : m.classifier.intercepts.length = m.classifier.classes.length)
    (hcx : idxOr m.classifier.classes "complex" 1 < m.classifier.classes.length)
    (hmu : idxOr m.classifier.classes "multistep" 2 < m.classifier.classes.length)
    (hne : m.classifier.classes ≠ [])
    (hoov : ∀ tok ∈ tokenize text, tok ∉ m.tfidf.vocabulary.map Prod.fst) :
    linScores m text = .ok (m.classifier.intercepts.map (fun q : ℚ => (q : ℝ))) ∧
    ∃ adj, overlay m.classifier.classes text
        (m.classifier.intercepts.map (fun q : ℚ => (q : ℝ))) = .ok adj ∧
      predict m text = .ok {
        label := m.classifier.classes.getD (argmaxIdx adj) "",
        confidence := (softmax adj).getD (argmaxIdx adj) 0,
        probabilities := (List.range m.classifier.classes.length).map
          (fun i => (m.classifier.classes.getD i "", (softmax adj).getD i 0)) } := by
  have hlin := linScores_oov m text hv hil hall hci hoov
  refine ⟨hlin, ?_⟩
  have hslen : (m.classifier.intercepts.map (fun q : ℚ => (q : ℝ))).length =
      m.classifier.classes.length := by
    rw [List.length_map]
    exact hic
  obtain ⟨adj, hov, hlen⟩ := overlay_ok m.classifier.classes text _
    (by rw [hslen]; exact hcx) (by rw [hslen]; exact hmu)
  have hadjlen : m.classifier.classes.length = adj.length := by
    rw [hlen, hslen]
  have hadjne : adj ≠ [] := by
    intro he
    apply hne
    apply List.length_eq_zero.1
    rw [hadjlen, he]
    rfl
  exact ⟨adj, hov, predict_ok m text _ adj hlin hov hadjne hadjlen⟩

/-- Witness for C6 at the fixture artifact and the out-of-vocabulary
text "hello". -/
theorem C6_degenerate_witness :
    linScores fixtureModel "hello" =
      .ok (fixtureModel.classifier.intercepts.map (fun q : ℚ => (q : ℝ))) ∧
    ∃ adj, overlay fixtureModel.classifier.classes "hello"
        (fixtureModel.classifier.intercepts.map (fun q : ℚ => (q : ℝ))) = .ok adj ∧
      predict fixtureModel "hello" = .ok {
        label := fixtureModel.classifier.classes.getD (argmaxIdx adj) "",
        confidence := (softmax adj).getD (argmaxIdx adj) 0,
        probabilities := (List.range fixtureModel.classifier.classes.length).map
          (fun i => (fixtureModel.classifier.classes.getD i "",
            (softmax adj).getD i 0)) } :=
  C6_degenerate_input fixtureModel "hello" (by decide) (by decide) (by decide)
    (by decide) (by decide) (by decide) (by decide) (by decide) (by decide)

/-- Inversion of a successful `predict` call: recovers the intermediate
scores and the shape facts the success requires, and the exact result
record. -/
theorem predict_ok_inv (m : Model) (text : String) (r : Pred)
    (h : predict m text = .ok r) :
    ∃ s0 scores, linScores m text = .ok s0 ∧
      overlay m.classifier.classes text s0 = .ok scores ∧
      scores ≠ [] ∧
      argmaxIdx (softmax scores) < m.classifier.classes.length ∧
      m.classifier.classes.length ≤ (softmax scores).length ∧
      r = { label := m.classifier.classes.getD (argmaxIdx (softmax scores)) "",
            confidence := (softmax scores).getD (argmaxIdx (softmax scores)) 0,
            probabilities := (List.range m.classifier.classes.length).map
              (fun i => (m.classifier.classes.getD i "",
                (softmax scores).getD i 0)) } := by
  rw [predict] at h
  rcases hlin : linScores m text with e | s0
  · rw [hlin] at h
    exact absurd h (by simp)
  · rw [hlin] at h
    simp only [bind_ok] at h
    rcases hov : overlay m.classifier.classes text s0 with e | scores
    · rw [hov] at h
      exact absurd h (by simp)
    · rw [hov] at h
      simp only [bind_ok] at h
      refine ⟨s0, scores, rfl, hov, ?_⟩
      split at h
      · exact absurd h (by simp)
      · rename_i hie
        split at h
        · rename_i hp
          split at h
          · rename_i hle
            injection h with h2
            refine ⟨?_, hp, hle, ?_⟩
            · intro he
              apply hie
              rw [he]
              rfl
            · rw [← h2]
              have : m.classifier.classes.get
                  ⟨argmaxIdx (softmax scores), hp⟩ =
                  m.classifier.classes.getD (argmaxIdx (softmax scores)) "" := by
                rw [List.getD_eq_getElem _ _ hp]
                rfl
              rw [this]
          · exact absurd h (by simp)
        · exact absurd h (by simp)

/-- Enumerating a list by positional reads over its index range
reconstructs the list. -/
theorem map_range_getD {α : Type} (l : List α) (d : α) :
    (List.range l.length).map (fun i => l.getD i d) = l := by
  apply List.ext_getElem
  · rw [List.length_map, List.length_range]
  · intro i h1 h2
    rw [List.getElem_map, List.getElem_range, List.getD_eq_getElem _ _ h2]

/-- Association-list lookup at the head key. -/
theorem lookup_cons_self {β : Type} (k : String) (b : β) (es : List (String × β)) :
    List.lookup k ((k, b) :: es) = some b := by
  rw [List.lookup_cons]
  rw [beq_self_eq_true]

/-- Association-list lookup skips a head entry with a different key. -/
theorem lookup_cons_of_ne {β : Type} (a k : String) (b : β) (es : List (String × β))
    (h : a ≠ k) : List.lookup a ((k, b) :: es) = List.lookup a es := by
  rw [List.lookup_cons]
  rw [beq_eq_false_iff_ne.2 h]

/-- In the probabilities table built over a duplicate-free class list,
looking up the j-th class yields the j-th value. -/
theorem lookup_range_pairs (classes : List String) (f : ℕ → ℝ) (j : ℕ)
    (hnd : classes.Nodup) (hj : j < classes.length) :
    ((List.range classes.length).map (fun i => (classes.getD i "", f i))).lookup
      (classes.getD j "") = some (f j) := by
  induction classes generalizing f j with
  | nil => exact absurd hj (Nat.not_lt_zero j)
  | cons c cs ih =>
    rw [List.length_cons, List.range_succ_eq_map, List.map_cons, List.map_map]
    cases j with
    | zero =>
      rw [List.getD_cons_zero]
      exact lookup_cons_self _ _ _
    | succ j =>
      rw [List.nodup_cons] at hnd
      have hj2 : j < cs.length := Nat.succ_lt_succ_iff.1 hj
      rw [List.getD_cons_succ, List.getD_cons_zero]
      have hkey : cs.getD j "" ∈ cs := by
        rw [List.getD_eq_getElem _ _ hj2]
        exact List.getElem_mem _
      have hne2 : cs.getD j "" ≠ c := fun he => hnd.1 (he ▸ hkey)
      rw [lookup_cons_of_ne _ _ _ _ hne2]
      have hcomp : ((fun i => ((c :: cs).getD i "", f i)) ∘ Nat.succ) =
          (fun i => (cs.getD i "", (fun i2 => f (i2+1)) i)) := by
        funext i
        simp [List.getD_cons_succ]
      rw [hcomp]
      exact ih (fun i2 => f (i2+1)) j hnd.2 hj2

/-- C9: every successful prediction over a duplicate-free class list is
internally consistent: the probabilities mapping has exactly one entry
per class (its keys are the class list in order), the confidence equals
the probability stored under the chosen label, and no class probability
exceeds the confidence (the label maximizes the distribution). -/
theorem C9_result_consistent (m : Model) (text : String) (r : Pred)
    (hnd : m.classifier.classes.Nodup)
    (h : predict m text = .ok r) :
    r.probabilities.map Prod.fst = m.classifier.classes ∧
    r.probabilities.lookup r.label = some r.confidence ∧
    ∀ p ∈ r.probabilities.map Prod.snd, p ≤ r.confidence := by
  obtain ⟨s0, scores, hlin, hov, hne, hp, hle, hr⟩ := predict_ok_inv m text r h
  subst hr
  dsimp only
  have hprobs_ne : softmax scores ≠ [] := by
    intro he
    have hl := softmax_length scores
    rw [he] at hl
    exact hne (List.length_eq_zero.1 hl.symm)
  refine ⟨?_, ?_, ?_⟩
  · rw [List.map_map]
    have hcc : (Prod.fst ∘ fun i => (m.classifier.classes.getD i "",
        (softmax scores).getD i 0)) = fun i => m.classifier.classes.getD i "" := rfl
    rw [hcc]
    exact map_range_getD _ _
  · exact lookup_range_pairs _ (fun i => (softmax scores).getD i 0) _ hnd hp
  · intro p hp2
    rw [List.map_map] at hp2
    rcases List.mem_map.1 hp2 with ⟨i, hi, rfl⟩
    show (softmax scores).getD i 0 ≤ (softmax scores).getD (argmaxIdx (softmax scores)) 0
    rw [getD_argmaxIdx _ hprobs_ne]
    have hi2 : i < m.classifier.classes.length := List.mem_range.1 hi
    have hi3 : i < (softmax scores).length := lt_of_lt_of_le hi2 hle
    rw [List.getD_eq_getElem _ _ hi3]
    exact le_maxList _ _ (List.getElem_mem _)


/-- The prediction record that `predict` returns on the fixture model
and the text "deploy docker". -/
noncomputable def wPred : Pred :=
  { label := fixtureModel.classifier.classes.getD
      (argmaxIdx [(0:ℝ), Real.sqrt 2 + 3/2, 0]) "",
    confidence := (softmax [(0:ℝ), Real.sqrt 2 + 3/2, 0]).getD
      (argmaxIdx [(0:ℝ), Real.sqrt 2 + 3/2, 0]) 0,
    probabilities := (List.range fixtureModel.classifier.classes.length).map
      (fun i => (fixtureModel.classifier.classes.getD i "",
        (softmax [(0:ℝ), Real.sqrt 2 + 3/2, 0]).getD i 0)) }

/-- Concrete successful prediction feeding the C9 witness. -/
theorem predict_fixture_eq : predict fixtureModel "deploy docker" = .ok wPred :=
  predict_ok fixtureModel "deploy docker" _ _ linScores_fixture overlay_fixture
    (by simp) (by simp [fixtureModel])

/-- Witness for C9 at the fixture model and the text "deploy docker". -/
theorem C9_result_witness :
    wPred.probabilities.map Prod.fst = fixtureModel.classifier.classes ∧
    wPred.probabilities.lookup wPred.label = some wPred.confidence ∧
    ∀ p ∈ wPred.probabilities.map Prod.snd, p ≤ wPred.confidence :=
  C9_result_consistent fixtureModel "deploy docker" wPred (by decide)
    predict_fixture_eq

/-! Embedding of ml/recommender/scripts/predict.py. -/

/-- The encoders tables of the recommender artifact. -/
structure Encoders where
  action : List (String × ℚ)
  language : List (String × ℚ)
  complexity : List (String × ℚ)
deriving DecidableEq

/-- The recommender model artifact (model.json). -/
structure RecModel where
  encoders : Encoders
  coefficients : List (List ℚ)
  intercept : List ℚ
deriving DecidableEq

/-- Categorical encoding of recommender predict.py lines 28-44: the
encoder table value, or the default 0 when the value is unknown (the
warning print is dropped). -/
def encodeCat (enc : List (String × ℚ)) (v : String) : ℚ :=
  match enc.lookup v with
  | some x => x
  | none => 0

/-- Digit-string parser replicating Python int on the size digits. -/
def parseNat (cs : List Char) : ℕ := cs.foldl (fun n c => 10 * n + (c.toNat - 48)) 0

/-- The size literals of extract_model_features, searched in order. -/
def size_strings : List String :=
  ["405b", "120b", "70b", "32b", "33b", "22b", "9b", "8b", "3b"]

/-- extract_model_features of recommender predict.py lines 11-23; the
Python size.replace drops the trailing letter b, which dropLast
replicates because every size literal ends in its only b. -/
def extract_model_features (model_id : String) : ℚ × ℚ × ℚ :=
  let m := lowerStr model_id
  let has_coder : ℚ := if strIn "coder" m || strIn "code" m then 1 else 0
  let has_instant : ℚ := if strIn "instant" m || strIn "flash" m then 1 else 0
  let model_size : ℚ :=
    match size_strings.find? (fun s => strIn s m) with
    | some s => (parseNat s.data.dropLast : ℚ)
    | none => 0
  (has_coder, has_instant, model_size)

/-- predict of recommender predict.py lines 25-62: encode the
categorical inputs with default 0 on unknowns, build the 8 features
with log1p transforms, apply the single logistic regression row, and
return the sigmoid probability.  Missing coefficient or intercept rows
are Python IndexErrors; a row width other than 8 is a numpy shape
error. -/
noncomputable def rec_predict (md : RecModel)
    (model_id action language complexity : String)
    (context_window cost_per_1m : ℚ) : Except String ℝ :=
  let fs := extract_model_features model_id
  let log_cost : ℝ := Real.log (1 + (cost_per_1m : ℝ))
  let log_context : ℝ := Real.log (1 + (context_window : ℝ))
  let features : List ℝ :=
    [(encodeCat md.encoders.action action : ℝ),
     (encodeCat md.encoders.language language : ℝ),
     (encodeCat md.encoders.complexity complexity : ℝ),
     log_cost, log_context, (fs.1 : ℝ), (fs.2.1 : ℝ), (fs.2.2 : ℝ)]
  match md.coefficients with
  | [] => .error "list index out of range"
  | coef :: _ =>
    match md.intercept with
    | [] => .error "list index out of range"
    | i0 :: _ =>
      if coef.length = features.length then
        .ok (1 / (1 + Real.exp
          (-(dotR features (coef.map (fun q : ℚ => (q : ℝ))) + (i0 : ℝ)))))
      else .error "shapes not aligned"

/-- Lookup misses exactly when the key is absent. -/
theorem lookup_none_of_not_mem {β : Type} (enc : List (String × β)) (v : String)
    (h : v ∉ enc.map Prod.fst) : enc.lookup v = none := by
  induction enc with
  | nil => rfl
  | cons p es ih =>
    simp only [List.map_cons, List.mem_cons, not_or] at h
    rcases p with ⟨k, b⟩
    rw [lookup_cons_of_ne _ _ _ _ h.1]
    exact ih h.2

/-- Unknown categorical values encode to the default 0. -/
theorem encodeCat_of_not_mem (enc : List (String × ℚ)) (v : String)
    (h : v ∉ enc.map Prod.fst) : encodeCat enc v = 0 := by
  rw [encodeCat, lookup_none_of_not_mem _ _ h]

/-- C7: when the action, language, or complexity value is unknown to the
artifact encoders, classify_features does not fail: each unknown value
is replaced by the default encoding 0 and the call still returns a
probability p strictly between 0 and 1, so the induced success/failure
distribution (p, 1-p) is fully normalized. -/
theorem C7_unknown_categorical (md : RecModel)
    (model_id action language complexity : String)
    (context_window cost_per_1m : ℚ)
    (hco : md.coefficients ≠ [])
    (hcl : (md.coefficients.headD []).length = 8)
    (hin : md.intercept ≠ [])
    (_hunk : action ∉ md.encoders.action.map Prod.fst ∨
      language ∉ md.encoders.language.map Prod.fst ∨
      complexity ∉ md.encoders.complexity.map Prod.fst) :
    (action ∉ md.encoders.action.map Prod.fst →
      encodeCat md.encoders.action action = 0) ∧
    (language ∉ md.encoders.language.map Prod.fst →
      encodeCat md.encoders.language language = 0) ∧
    (complexity ∉ md.encoders.complexity.map Prod.fst →
      encodeCat md.encoders.complexity complexity = 0) ∧
    ∃ p, rec_predict md model_id action language complexity
        context_window cost_per_1m = .ok p ∧
      0 < p ∧ p < 1 ∧ p + (1 - p) = 1 := by
  refine ⟨fun h => encodeCat_of_not_mem _ _ h,
          fun h => encodeCat_of_not_mem _ _ h,
          fun h => encodeCat_of_not_mem _ _ h, ?_⟩
  rw [rec_predict]
  rcases hc : md.coefficients with _ | ⟨coef, rest⟩
  · exact absurd hc hco
  · rcases hi : md.intercept with _ | ⟨i0, irest⟩
    · exact absurd hi hin
    · have hlen : coef.length = 8 := by
        rw [hc] at hcl
        exact hcl
      dsimp only
      rw [if_pos (by rw [hlen]; rfl)]
      refine ⟨_, rfl, ?_, ?_, by ring⟩
      · positivity
      · rw [div_lt_one (by positivity)]
        have := Real.exp_pos
          (-(dotR [(encodeCat md.encoders.action action : ℝ),
            (encodeCat md.encoders.language language : ℝ),
            (encodeCat md.encoders.complexity complexity : ℝ),
            Real.log (1 + (cost_per_1m : ℝ)), Real.log (1 + (context_window : ℝ)),
            ((extract_model_features model_id).1 : ℝ),
            ((extract_model_features model_id).2.1 : ℝ),
            ((extract_model_features model_id).2.2 : ℝ)]
            (coef.map (fun q : ℚ => (q : ℝ))) + (i0 : ℝ)))
        linarith


/-- A small recommender artifact for the C7 witness. -/
def recFixture : RecModel :=
  { encoders := { action := [("edit", 0), ("review", 1)],
                  language := [("go", 0), ("python", 1)],
                  complexity := [("simple", 0), ("complex", 1)] },
    coefficients := [[1, 1, 1, 1, 1, 1, 1, 1]],
    intercept := [0] }

/-- Witness for C7 with the unknown language value "rust". -/
theorem C7_unknown_witness :
    ("edit" ∉ recFixture.encoders.action.map Prod.fst →
      encodeCat recFixture.encoders.action "edit" = 0) ∧
    ("rust" ∉ recFixture.encoders.language.map Prod.fst →
      encodeCat recFixture.encoders.language "rust" = 0) ∧
    ("simple" ∉ recFixture.encoders.complexity.map Prod.fst →
      encodeCat recFixture.encoders.complexity "simple" = 0) ∧
    ∃ p, rec_predict recFixture "qwen-2.5-coder-32b" "edit" "rust" "simple"
        32000 (7/50) = .ok p ∧
      0 < p ∧ p < 1 ∧ p + (1 - p) = 1 :=
  C7_unknown_categorical recFixture "qwen-2.5-coder-32b" "edit" "rust" "simple"
    32000 (7/50) (by decide) (by decide) (by decide) (by decide)

/-- Witness for C8: the fixture artifact and the mismatched artifact
share the tfidf component, so they vectorize the text identically. -/
theorem C8_vectorizer_witness :
    transform fixtureModel.tfidf "deploy docker" =
      transform fixtureModel.tfidf "deploy docker" ∧
    transform fixtureModel.tfidf "deploy docker" =
      transform badModel.tfidf "deploy docker" :=
  C8_vectorizer_pure fixtureModel badModel "deploy docker" (by decide)

end Chuchu
